import Mathlib

/-!
Verification of the Didact fiber reconciler (`src/didact-demo.js`, the most
evolved snapshot of the demo).  The JavaScript program is shallowly embedded:
JS property bags become association lists, DOM mutations become explicit
operation lists, and the mutable fiber graph becomes a pure tree that the
render pipeline rebuilds functionally.
-/

set_option maxHeartbeats 1000000

/-- A JS value stored in a props object: strings, numbers, booleans, or
event-handler functions.  Handlers are compared by reference in JS
(`prev[key] !== next[key]`), modelled here by an identity number. -/
inductive Val where
  | str (s : String)
  | num (n : Int)
  | boolean (b : Bool)
  | handler (id : Nat)
deriving DecidableEq, Repr

/-- A props object: ordered string-keyed fields (the `children` field is kept
structurally, outside the list). -/
abbrev Props := List (String × Val)

/-- JS property read `obj[key]`: first binding wins, `undefined` is `none`. -/
def getProp (k : String) : Props → Option Val
  | [] => none
  | (k', v) :: ps => if k' = k then some v else getProp k ps

/-- `Object.keys`. -/
def propKeys (ps : Props) : List String := ps.map (·.1)

/-- JS `s.startsWith(pre)`, as a prefix test on the character list. -/
def strStartsWith (s pre : String) : Bool := pre.toList.isPrefixOf s.toList

/-- `const isEvent = (key) => key.startsWith("on")`. -/
def isEvent (key : String) : Bool := strStartsWith key "on"

/-- `const isProperty = (key) => key !== "children" && !isEvent(key)`. -/
def isProperty (key : String) : Bool := !(key == "children") && !(isEvent key)

/-- `const isNew = (prev, next) => (key) => prev[key] !== next[key]`. -/
def isNewProp (prev next : Props) (key : String) : Bool :=
  getProp key prev != getProp key next

/-- `const isGone = (prev, next) => (key) => !(key in next)`. -/
def isGoneProp (next : Props) (key : String) : Bool :=
  !(getProp key next).isSome

/-- One attribute-level DOM mutation performed by `updateDom`.
`setProp name (some (Val.str ""))` is how the "remove old properties" pass
clears an attribute (`dom[name] = ""`). -/
inductive DomOp where
  | removeListener (eventType : String) (h : Option Val)
  | setProp (name : String) (v : Option Val)
  | addListener (eventType : String) (h : Option Val)
deriving DecidableEq, Repr

/-- `updateDom(dom, prevProps, nextProps)` as the list of mutations it performs,
in order: remove old/changed listeners, clear gone properties (to `""`),
set new/changed properties, add new/changed listeners. -/
def updateDom (prevProps nextProps : Props) : List DomOp :=
  (((propKeys prevProps).filter isEvent).filter
      (fun key => !(getProp key nextProps).isSome || isNewProp prevProps nextProps key)).map
    (fun name => DomOp.removeListener ((name.toLower).drop 2) (getProp name prevProps))
  ++ (((propKeys prevProps).filter isProperty).filter
      (fun name => isGoneProp nextProps name)).map
    (fun name => DomOp.setProp name (some (Val.str "")))
  ++ (((propKeys nextProps).filter isProperty).filter
      (fun name => isNewProp prevProps nextProps name)).map
    (fun name => DomOp.setProp name (getProp name nextProps))
  ++ (((propKeys nextProps).filter isEvent).filter
      (fun name => isNewProp prevProps nextProps name)).map
    (fun name => DomOp.addListener ((name.toLower).drop 2) (getProp name nextProps))

/-- Effect tags decided by `reconcileChildren`, consumed by `commitWork`. -/
inductive EffectTag where
  | placement
  | update
  | deletion
deriving DecidableEq, Repr

/-- An element (`createElement` output): `type`, non-children props, and the
`props.children` list. -/
inductive ETree where
  | node (ty : String) (props : Props) (children : List ETree)

def ETree.ty : ETree → String
  | .node t _ _ => t

def ETree.props : ETree → Props
  | .node _ p _ => p

def ETree.children : ETree → List ETree
  | .node _ _ cs => cs

/-- A fiber: `type`, `props`, the owned DOM node (a handle), effect tag,
`alternate` link to the previous tree's fiber, and the child/sibling chain as
a children list. -/
inductive Fiber where
  | mk (ty : String) (props : Props) (dom : Option Nat)
      (effectTag : EffectTag) (alternate : Option Fiber) (children : List Fiber)

def Fiber.ty : Fiber → String
  | .mk t _ _ _ _ _ => t

def Fiber.props : Fiber → Props
  | .mk _ p _ _ _ _ => p

def Fiber.dom : Fiber → Option Nat
  | .mk _ _ d _ _ _ => d

def Fiber.effectTag : Fiber → EffectTag
  | .mk _ _ _ tg _ _ => tg

def Fiber.alternate : Fiber → Option Fiber
  | .mk _ _ _ _ a _ => a

def Fiber.children : Fiber → List Fiber
  | .mk _ _ _ _ _ cs => cs

/-- `oldFiber.effectTag = "DELETION"` (the in-place mutation, as a copy). -/
def Fiber.setTag (f : Fiber) (tag : EffectTag) : Fiber :=
  match f with
  | .mk t p d _ a c => .mk t p d tag a c

/-- The fields `reconcileChildren` writes into a freshly made `newFiber`
before the scheduler later expands its children. -/
structure Proto where
  ty : String
  props : Props
  dom : Option Nat
  alternate : Option Fiber
  effectTag : EffectTag

/-- The tail of the `reconcileChildren` loop once the element list is
exhausted (`index >= elements.length` but `oldFiber != null`): every
remaining old fiber is tagged DELETION and pushed, in order. -/
def deleteRest : List Fiber → List Fiber
  | [] => []
  | o :: os => o.setTag .deletion :: deleteRest os

/-- `reconcileChildren(wipFiber, elements)`: lock-step positional walk of the
old sibling chain and the new element list.  Returns the per-position new
fibers (one per element, in order) and the old fibers pushed onto the
pending-deletions list (tagged DELETION), in push order. -/
def reconcileChildren : List Fiber → List ETree → List Proto × List Fiber
  | olds, [] => ([], deleteRest olds)
  | olds, e :: es =>
    match olds with
    | [] =>
      let r := reconcileChildren [] es
      (⟨e.ty, e.props, none, none, .placement⟩ :: r.1, r.2)
    | o :: os =>
      let r := reconcileChildren os es
      if e.ty = o.ty then
        (⟨o.ty, e.props, o.dom, some o, .update⟩ :: r.1, r.2)
      else
        (⟨e.ty, e.props, none, none, .placement⟩ :: r.1, o.setTag .deletion :: r.2)

mutual

/-- `performUnitOfWork` / `updateHostComponent` for one fiber, run to
completion over its whole subtree (the scheduler visits the subtree in
depth-first order; the result is the same fully expanded tree).
Arguments: the element, the `type`/`effectTag`/`alternate`/`dom` fields the
parent's `reconcileChildren` wrote into this fiber, and the allocator counter
for `createDom` (a fresh DOM handle per created node).
Returns the finished fiber, the old fibers pushed onto the deletions list
(in push order), and the new counter. -/
def performFiber : ETree → String → EffectTag → Option Fiber → Option Nat → Nat →
    Fiber × List Fiber × Nat
  | .node _ props0 childEs, ty, tag, alt, dom0, cnt =>
    let domAlloc : Option Nat × Nat :=
      match dom0 with
      | some d => (some d, cnt)
      | none => (some cnt, cnt + 1)
    let olds : List Fiber :=
      match alt with
      | some a => a.children
      | none => []
    let lvl := reconcileChildren olds childEs
    let rest := performFibers childEs lvl.1 domAlloc.2
    (.mk ty props0 domAlloc.1 tag alt rest.1, lvl.2 ++ rest.2.1, rest.2.2)

def performFibers : List ETree → List Proto → Nat → List Fiber × List Fiber × Nat
  | [], _, cnt => ([], [], cnt)
  | _ :: _, [], cnt => ([], [], cnt)
  | e :: es, p :: ps, cnt =>
    let f := performFiber e p.ty p.effectTag p.alternate p.dom cnt
    let r := performFibers es ps f.2.2
    (f.1 :: r.1, f.2.1 ++ r.2.1, r.2.2)
end

/-- A whole render pass: `render(element, container)` makes
`wipRoot = { dom: container, props: { children: [element] }, alternate: currentRoot }`
and the work loop then processes it to completion.  The root fiber behaves as
a host fiber whose `dom` is already present (the container). -/
def renderRoot (e : ETree) (current : Option Fiber) (containerDom : Nat) (cnt : Nat) :
    Fiber × List Fiber × Nat :=
  performFiber (.node "" [] [e]) "" .update current (some containerDom) cnt

/-- One DOM-tree mutation performed by the commit phase. -/
inductive CommitOp where
  | append (parent : Nat) (node : Nat)
  | patch (node : Nat) (ops : List DomOp)
  | remove (parent : Nat) (node : Option Nat)
deriving DecidableEq, Repr

mutual

/-- `commitWork(fiber)`: the DOM parent is the nearest ancestor fiber owning a
`dom` (passed down instead of climbed up); PLACEMENT appends, UPDATE patches
against `alternate.props`, DELETION removes; then child and sibling. -/
def commitWork (domParent : Nat) : Fiber → List CommitOp
  | .mk _ props dom tag alt chs =>
    let own : List CommitOp :=
      match tag, dom with
      | .placement, some d => [.append domParent d]
      | .placement, none => []
      | .update, some d =>
        [.patch d (updateDom (match alt with | some a => a.props | none => []) props)]
      | .update, none => []
      | .deletion, _ => [.remove domParent dom]
    own ++ commitWorks (match dom with | some d => d | none => domParent) chs

def commitWorks (domParent : Nat) : List Fiber → List CommitOp
  | [] => []
  | f :: fs => commitWork domParent f ++ commitWorks domParent fs
end

/-- `commitRoot()` from the source: it runs `commitWork(wipRoot.child)` only.
The line `deletions.forEach(commitWork)` is commented out in the source, so
the pending-deletions list is never committed and does not appear here. -/
def commitRoot (containerDom : Nat) (root : Fiber) : List CommitOp :=
  commitWorks containerDom root.children

def isRemoveOp : CommitOp → Bool
  | .remove _ _ => true
  | _ => false

/-- How many `removeChild` calls a commit performs. -/
def removalCount (ops : List CommitOp) : Nat := (ops.filter isRemoveOp).length

/-- Text element `{ type: "TEXT_ELEMENT", props: { nodeValue: text, children: [] } }`. -/
def textElem (s : String) : ETree := .node "TEXT_ELEMENT" [("nodeValue", .str s)] []

/-- Scenario for the deletion claim: first render `<div><h1>a</h1><h2>b</h2></div>`,
second render `<div><h1>a</h1></div>` (the `h2` is removed from the list). -/
def delOldElem : ETree := .node "div" [] [.node "h1" [] [textElem "a"], .node "h2" [] [textElem "b"]]

def delNewElem : ETree := .node "div" [] [.node "h1" [] [textElem "a"]]

def delFirstRender : Fiber × List Fiber × Nat := renderRoot delOldElem none 0 1

def delSecondRender : Fiber × List Fiber × Nat :=
  renderRoot delNewElem (some delFirstRender.1) 0 delFirstRender.2.2

example : delSecondRender.2.1.length = 1 := by decide
example : removalCount (commitRoot 0 delSecondRender.1) = 0 := by decide

mutual

/-- Fibers of a work-in-progress tree never carry the DELETION tag
(recursively). -/
def noDeletionTag : Fiber → Bool
  | .mk _ _ _ tag _ chs => !(tag == EffectTag.deletion) && noDeletionTags chs

def noDeletionTags : List Fiber → Bool
  | [] => true
  | f :: fs => noDeletionTag f && noDeletionTags fs

end

theorem recon_proto_tag : ∀ (elems : List ETree) (olds : List Fiber) (p : Proto),
    p ∈ (reconcileChildren olds elems).1 → p.effectTag ≠ EffectTag.deletion := by
  intro elems
  induction elems with
  | nil =>
    intro olds p hp
    simp [reconcileChildren] at hp
  | cons e es ih =>
    intro olds p hp
    cases olds with
    | nil =>
      simp only [reconcileChildren, List.mem_cons] at hp
      rcases hp with h | h
      · subst h; simp
      · exact ih [] p h
    | cons o os =>
      simp only [reconcileChildren] at hp
      by_cases hty : e.ty = o.ty
      · rw [if_pos hty] at hp
        simp only [List.mem_cons] at hp
        rcases hp with h | h
        · subst h; simp
        · exact ih os p h
      · rw [if_neg hty] at hp
        simp only [List.mem_cons] at hp
        rcases hp with h | h
        · subst h; simp
        · exact ih os p h

mutual

theorem performFiber_noDeletion (e : ETree) (ty : String) (tag : EffectTag)
    (alt : Option Fiber) (dom0 : Option Nat) (cnt : Nat) (h : tag ≠ EffectTag.deletion) :
    noDeletionTag (performFiber e ty tag alt dom0 cnt).1 = true := by
  cases e with
  | node ety props0 childEs =>
    simp only [performFiber, noDeletionTag, Bool.and_eq_true, bne_iff_ne, ne_eq]
    exact ⟨by simpa using h,
      performFibers_noDeletion childEs _ _ (fun p hp => recon_proto_tag childEs _ p hp)⟩

theorem performFibers_noDeletion (es : List ETree) (ps : List Proto) (cnt : Nat)
    (h : ∀ p ∈ ps, p.effectTag ≠ EffectTag.deletion) :
    noDeletionTags (performFibers es ps cnt).1 = true := by
  cases es with
  | nil => simp [performFibers, noDeletionTags]
  | cons e es' =>
    cases ps with
    | nil => simp [performFibers, noDeletionTags]
    | cons p ps' =>
      simp only [performFibers, noDeletionTags, Bool.and_eq_true]
      exact ⟨performFiber_noDeletion e _ _ _ _ _ (h p (by simp)),
        performFibers_noDeletion es' ps' _ (fun q hq => h q (by simp [hq]))⟩

end

mutual

theorem commitWork_no_remove (dp : Nat) (f : Fiber) (h : noDeletionTag f = true) :
    (commitWork dp f).filter isRemoveOp = [] := by
  cases f with
  | mk ty props dom tag alt chs =>
    simp only [noDeletionTag, Bool.and_eq_true, bne_iff_ne, ne_eq] at h
    simp only [commitWork, List.filter_append]
    rw [commitWorks_no_remove _ chs h.2]
    cases tag with
    | placement => cases dom <;> simp [isRemoveOp]
    | update => cases dom <;> simp [isRemoveOp]
    | deletion => exact absurd h.1 (by decide)

theorem commitWorks_no_remove (dp : Nat) (fs : List Fiber) (h : noDeletionTags fs = true) :
    (commitWorks dp fs).filter isRemoveOp = [] := by
  cases fs with
  | nil => simp [commitWorks]
  | cons f fs' =>
    simp only [noDeletionTags, Bool.and_eq_true] at h
    simp only [commitWorks, List.filter_append]
    rw [commitWork_no_remove _ f h.1, commitWorks_no_remove _ fs' h.2]
    rfl

end

theorem noDeletionTag_children (f : Fiber) (h : noDeletionTag f = true) :
    noDeletionTags f.children = true := by
  cases f with
  | mk ty props dom tag alt chs =>
    simp only [noDeletionTag, Bool.and_eq_true] at h
    exact h.2

/-- The commit of any rendered wip tree performs zero `removeChild` calls,
even when reconciliation recorded pending deletions: `commitRoot` in the
source has `deletions.forEach(commitWork)` commented out, and DELETION-tagged
old fibers are unreachable from the wip tree.  Concretely: going from
`<div><h1>a</h1><h2>b</h2></div>` to `<div><h1>a</h1></div>` records exactly
one pending deletion yet the commit performs zero DOM removals, where the
spec requires exactly one. -/
theorem deletions_never_committed :
    (∀ (e : ETree) (current : Option Fiber) (containerDom cnt : Nat),
      removalCount (commitRoot containerDom (renderRoot e current containerDom cnt).1) = 0)
    ∧ delSecondRender.2.1.length = 1
    ∧ removalCount (commitRoot 0 delSecondRender.1) = 0 := by
  refine ⟨fun e current containerDom cnt => ?_, by decide, by decide⟩
  have hroot : noDeletionTag (renderRoot e current containerDom cnt).1 = true :=
    performFiber_noDeletion _ _ _ _ _ _ (by simp)
  unfold removalCount commitRoot
  rw [commitWorks_no_remove _ _ (noDeletionTag_children _ hroot)]
  rfl

theorem mem_deleteRest : ∀ (olds : List Fiber) (o : Fiber), o ∈ olds →
    o.setTag EffectTag.deletion ∈ deleteRest olds := by
  intro olds
  induction olds with
  | nil => intro o h; simp at h
  | cons o' os ih =>
    intro o h
    rcases List.mem_cons.mp h with h | h
    · subst h; simp [deleteRest]
    · exact List.mem_cons_of_mem _ (ih o h)

/-- `reconcileChildren` walks elements and the old sibling chain in lock-step
by position: same position and same type gives an UPDATE fiber keeping the old
`dom`, adopting the new `props`, with `alternate` linked to the old fiber; a
new element without a type match gives a PLACEMENT fiber with `dom = null`
and `alternate = null`; an old fiber without a type match is tagged DELETION
and pushed on the pending-deletions list, and produces no new fiber (there is
exactly one new fiber per element position). -/
theorem reconcileChildren_positional :
    ∀ (olds : List Fiber) (elems : List ETree) (i : Nat),
      ((∀ o e, olds.get? i = some o → elems.get? i = some e → e.ty = o.ty →
          (reconcileChildren olds elems).1.get? i =
            some ⟨o.ty, e.props, o.dom, some o, EffectTag.update⟩) ∧
       (∀ e, elems.get? i = some e → (∀ o, olds.get? i = some o → e.ty ≠ o.ty) →
          (reconcileChildren olds elems).1.get? i =
            some ⟨e.ty, e.props, none, none, EffectTag.placement⟩) ∧
       (∀ o, olds.get? i = some o → (∀ e, elems.get? i = some e → e.ty ≠ o.ty) →
          o.setTag EffectTag.deletion ∈ (reconcileChildren olds elems).2) ∧
       (reconcileChildren olds elems).1.length = elems.length) := by
  intro olds elems
  induction elems generalizing olds with
  | nil =>
    intro i
    refine ⟨fun o e _ he => by simp at he, fun e he => by simp at he, ?_, by simp [reconcileChildren]⟩
    intro o ho _
    simpa [reconcileChildren] using mem_deleteRest olds o (List.get?_mem ho)
  | cons e es ih =>
    intro i
    cases olds with
    | nil =>
      cases i with
      | zero =>
        refine ⟨fun o e' ho => by simp at ho, ?_, fun o ho => by simp at ho, ?_⟩
        · intro e' he' _
          simp only [List.get?] at he'
          cases he'
          simp [reconcileChildren]
        · simpa [reconcileChildren] using (ih [] 0).2.2.2
      | succ j =>
        refine ⟨?_, ?_, fun o ho => by simp at ho, ?_⟩
        · intro o e' ho; simp at ho
        · intro e' he' hno
          have := (ih [] j).2.1 e' (by simpa using he') (fun o ho => by simp at ho)
          simpa [reconcileChildren] using this
        · simpa [reconcileChildren] using (ih [] j).2.2.2
    | cons o os =>
      by_cases hty : e.ty = o.ty
      · cases i with
        | zero =>
          refine ⟨?_, ?_, ?_, ?_⟩
          · intro o' e' ho' he' _
            simp only [List.get?] at ho' he'
            cases ho'; cases he'
            simp [reconcileChildren, if_pos hty]
          · intro e' he' hno
            simp only [List.get?] at he'
            cases he'
            exact absurd hty (hno o rfl)
          · intro o' ho' hno
            simp only [List.get?] at ho'
            cases ho'
            exact absurd hty (hno e rfl)
          · simp [reconcileChildren, if_pos hty, (ih os 0).2.2.2]
        | succ j =>
          refine ⟨?_, ?_, ?_, ?_⟩
          · intro o' e' ho' he' h'
            have := (ih os j).1 o' e' (by simpa using ho') (by simpa using he') h'
            simpa [reconcileChildren, if_pos hty] using this
          · intro e' he' hno
            have := (ih os j).2.1 e' (by simpa using he') (fun o' ho' => hno o' (by simpa using ho'))
            simpa [reconcileChildren, if_pos hty] using this
          · intro o' ho' hno
            have := (ih os j).2.2.1 o' (by simpa using ho') (fun e' he' => hno e' (by simpa using he'))
            simpa [reconcileChildren, if_pos hty] using this
          · simp [reconcileChildren, if_pos hty, (ih os 0).2.2.2]
      · cases i with
        | zero =>
          refine ⟨?_, ?_, ?_, ?_⟩
          · intro o' e' ho' he' h'
            simp only [List.get?] at ho' he'
            cases ho'; cases he'
            exact absurd h' hty
          · intro e' he' hno
            simp only [List.get?] at he'
            cases he'
            simp [reconcileChildren, if_neg hty]
          · intro o' ho' hno
            simp only [List.get?] at ho'
            cases ho'
            simp [reconcileChildren, if_neg hty]
          · simp [reconcileChildren, if_neg hty, (ih os 0).2.2.2]
        | succ j =>
          refine ⟨?_, ?_, ?_, ?_⟩
          · intro o' e' ho' he' h'
            have := (ih os j).1 o' e' (by simpa using ho') (by simpa using he') h'
            simpa [reconcileChildren, if_neg hty] using this
          · intro e' he' hno
            have := (ih os j).2.1 e' (by simpa using he') (fun o' ho' => hno o' (by simpa using ho'))
            simpa [reconcileChildren, if_neg hty] using this
          · intro o' ho' hno
            have := (ih os j).2.2.1 o' (by simpa using ho') (fun e' he' => hno e' (by simpa using he'))
            simp only [reconcileChildren, if_neg hty]
            exact List.mem_cons_of_mem _ this
          · simp [reconcileChildren, if_neg hty, (ih os 0).2.2.2]

/-- Witness for the positional reconciliation theorem on a concrete input:
old chain `[h1(dom 7), p(dom 8)]`, new elements `[h1, div]` gives an UPDATE
at position 0, a PLACEMENT at position 1, and a DELETION of the old `p`. -/
theorem reconcileChildren_positional_witness :
    (reconcileChildren
        [Fiber.mk "h1" [] (some 7) .update none [], Fiber.mk "p" [] (some 8) .update none []]
        [ETree.node "h1" [("id", .str "x")] [], ETree.node "div" [] []]).1.get? 0 =
      some ⟨"h1", [("id", .str "x")], some 7,
        some (Fiber.mk "h1" [] (some 7) .update none []), EffectTag.update⟩ := by
  exact (reconcileChildren_positional
    [Fiber.mk "h1" [] (some 7) .update none [], Fiber.mk "p" [] (some 8) .update none []]
    [ETree.node "h1" [("id", .str "x")] [], ETree.node "div" [] []] 0).1
    (Fiber.mk "h1" [] (some 7) .update none []) (ETree.node "h1" [("id", .str "x")] [])
    rfl rfl rfl

theorem getProp_isSome_of_mem_keys : ∀ (p : Props) (k : String), k ∈ propKeys p →
    (getProp k p).isSome = true := by
  intro p
  induction p with
  | nil => intro k h; simp [propKeys] at h
  | cons kv ps ih =>
    intro k h
    simp only [propKeys, List.map_cons, List.mem_cons] at h
    simp only [getProp]
    by_cases hk : kv.1 = k
    · simp [hk]
    · rw [if_neg hk]
      rcases h with h | h
      · exact absurd h (fun hh => hk hh.symm)
      · exact ih k (by simpa [propKeys] using h)

/-- Diffing identical props performs no DOM mutation at all. -/
theorem updateDom_same (p : Props) : updateDom p p = [] := by
  unfold updateDom
  have h1 : ((propKeys p).filter isEvent).filter
      (fun key => !(getProp key p).isSome || isNewProp p p key) = [] := by
    apply List.filter_eq_nil_iff.mpr
    intro k hk
    have hmem : k ∈ propKeys p := (List.mem_filter.mp hk).1
    simp [isNewProp, getProp_isSome_of_mem_keys p k hmem]
  have h2 : ((propKeys p).filter isProperty).filter (fun name => isGoneProp p name) = [] := by
    apply List.filter_eq_nil_iff.mpr
    intro k hk
    have hmem : k ∈ propKeys p := (List.mem_filter.mp hk).1
    simp [isGoneProp, getProp_isSome_of_mem_keys p k hmem]
  have h3 : ((propKeys p).filter isProperty).filter (fun name => isNewProp p p name) = [] := by
    apply List.filter_eq_nil_iff.mpr
    intro k hk
    simp [isNewProp]
  have h4 : ((propKeys p).filter isEvent).filter (fun name => isNewProp p p name) = [] := by
    apply List.filter_eq_nil_iff.mpr
    intro k hk
    simp [isNewProp]
  rw [h1, h2, h3, h4]
  simp



theorem isSome_false_eq_none {α : Type} {o : Option α} (h : o.isSome = false) : o = none := by
  cases o with
  | none => rfl
  | some v => simp at h

/-- Attribute classification of `updateDom`: keys with the `"on"` prefix are
event handlers whose event name is the lowercased key minus its two-character
prefix; `"children"` is never written as an attribute; listeners present in
prev but gone or reference-changed in next are removed; plain attributes
present in prev but gone in next are reset to the empty string. -/
theorem updateDom_classification :
    ∀ (prev next : Props),
      ((∀ k, k ∈ propKeys prev → isEvent k = true →
          (getProp k next = none ∨ getProp k prev ≠ getProp k next) →
          DomOp.removeListener ((k.toLower).drop 2) (getProp k prev) ∈ updateDom prev next) ∧
       (∀ ev h, DomOp.removeListener ev h ∈ updateDom prev next →
          ∃ k, k ∈ propKeys prev ∧ isEvent k = true ∧ ev = (k.toLower).drop 2 ∧
            h = getProp k prev ∧ (getProp k next = none ∨ getProp k prev ≠ getProp k next)) ∧
       (∀ ev h, DomOp.addListener ev h ∈ updateDom prev next →
          ∃ k, k ∈ propKeys next ∧ isEvent k = true ∧ ev = (k.toLower).drop 2 ∧
            h = getProp k next ∧ getProp k prev ≠ getProp k next) ∧
       (∀ v, DomOp.setProp "children" v ∉ updateDom prev next) ∧
       (∀ k, k ∈ propKeys prev → isEvent k = false → k ≠ "children" →
          getProp k next = none →
          DomOp.setProp k (some (Val.str "")) ∈ updateDom prev next)) := by
  intro prev next
  refine ⟨?_, ?_, ?_, ?_, ?_⟩
  · intro k hk hev hcond
    apply List.mem_append_left
    apply List.mem_append_left
    apply List.mem_append_left
    apply List.mem_map.mpr
    refine ⟨k, ?_, rfl⟩
    apply List.mem_filter.mpr
    refine ⟨List.mem_filter.mpr ⟨hk, hev⟩, ?_⟩
    rcases hcond with h | h
    · simp [h]
    · simp [isNewProp, bne_iff_ne, h]
  · intro ev h hmem
    simp only [updateDom, List.mem_append, List.mem_map, List.mem_filter] at hmem
    rcases hmem with ((⟨k, ⟨⟨hk, hev⟩, hcond⟩, heq⟩ | ⟨k, _, heq⟩) | ⟨k, _, heq⟩) | ⟨k, _, heq⟩
    · injection heq with h1 h2
      refine ⟨k, hk, hev, h1.symm, h2.symm, ?_⟩
      rcases (Bool.or_eq_true _ _).mp hcond with hc | hc
      · exact Or.inl (isSome_false_eq_none (by simpa using hc))
      · exact Or.inr (bne_iff_ne.mp hc)
    · exact absurd heq (by simp)
    · exact absurd heq (by simp)
    · exact absurd heq (by simp)
  · intro ev h hmem
    simp only [updateDom, List.mem_append, List.mem_map, List.mem_filter] at hmem
    rcases hmem with ((⟨k, _, heq⟩ | ⟨k, _, heq⟩) | ⟨k, _, heq⟩) | ⟨k, ⟨⟨hk, hev⟩, hcond⟩, heq⟩
    · exact absurd heq (by simp)
    · exact absurd heq (by simp)
    · exact absurd heq (by simp)
    · injection heq with h1 h2
      exact ⟨k, hk, hev, h1.symm, h2.symm, bne_iff_ne.mp hcond⟩
  · intro v hmem
    simp only [updateDom, List.mem_append, List.mem_map, List.mem_filter] at hmem
    rcases hmem with ((⟨k, _, heq⟩ | ⟨k, ⟨⟨hk, hprop⟩, _⟩, heq⟩) | ⟨k, ⟨⟨hk, hprop⟩, _⟩, heq⟩) | ⟨k, _, heq⟩
    · exact absurd heq (by simp)
    · injection heq with h1 h2
      subst h1
      simp [isProperty] at hprop
    · injection heq with h1 h2
      subst h1
      simp [isProperty] at hprop
    · exact absurd heq (by simp)
  · intro k hk hev hch hgone
    apply List.mem_append_left
    apply List.mem_append_left
    apply List.mem_append_right
    apply List.mem_map.mpr
    refine ⟨k, ?_, rfl⟩
    apply List.mem_filter.mpr
    refine ⟨List.mem_filter.mpr ⟨hk, ?_⟩, ?_⟩
    · simp [isProperty, hev, hch]
    · simp [isGoneProp, hgone]

/-- Witness for the attribute-diff classification at a concrete input:
prev `{onClick: handler 1, title: "t"}`, next `{}`: the `onClick` listener is
removed and `title` is cleared to the empty string. -/
theorem updateDom_classification_witness :
    DomOp.removeListener (("onClick".toLower).drop 2)
        (getProp "onClick" [("onClick", Val.handler 1), ("title", Val.str "t")]) ∈
      updateDom [("onClick", Val.handler 1), ("title", Val.str "t")] []
    ∧ DomOp.setProp "title" (some (Val.str "")) ∈
      updateDom [("onClick", Val.handler 1), ("title", Val.str "t")] [] := by
  constructor
  · exact (updateDom_classification
      [("onClick", Val.handler 1), ("title", Val.str "t")] []).1 "onClick"
      (by decide) (by decide) (Or.inl rfl)
  · exact (updateDom_classification
      [("onClick", Val.handler 1), ("title", Val.str "t")] []).2.2.2.2 "title"
      (by decide) (by decide) (by decide) rfl

/-- A JS argument to `createElement`'s rest parameter: either an element
object (`typeof child === "object"`) or a primitive value. -/
inductive JSChild where
  | elemChild (e : ETree)
  | textChild (v : Val)

/-- `createTextElement(text)`:
`{ type: "TEXT_ELEMENT", props: { nodeValue: text, children: [] } }`. -/
def createTextElement (v : Val) : ETree := .node "TEXT_ELEMENT" [("nodeValue", v)] []

/-- `createElement(type, props, ...children)`: object children pass through,
primitive children are coerced through `createTextElement`. -/
def createElement (ty : String) (props : Props) (children : List JSChild) : ETree :=
  .node ty props (children.map (fun c =>
    match c with
    | .elemChild e => e
    | .textChild v => createTextElement v))

/-- `createElement` coerces exactly the non-element children into text
elements with `nodeValue` the child value and no children, passes element
children through unchanged, and preserves positions. -/
theorem createElement_coercion :
    ∀ (ty : String) (props : Props) (children : List JSChild) (i : Nat),
      ((∀ e, children.get? i = some (JSChild.elemChild e) →
          (createElement ty props children).children.get? i = some e) ∧
       (∀ v, children.get? i = some (JSChild.textChild v) →
          (createElement ty props children).children.get? i =
            some (ETree.node "TEXT_ELEMENT" [("nodeValue", v)] [])) ∧
       (createElement ty props children).children.length = children.length) := by
  intro ty props children i
  refine ⟨?_, ?_, ?_⟩
  · intro e he
    have he2 : children[i]? = some (JSChild.elemChild e) := by
      simpa [List.get?_eq_getElem?] using he
    simp [createElement, ETree.children, List.getElem?_map, he2]
  · intro v hv
    have hv2 : children[i]? = some (JSChild.textChild v) := by
      simpa [List.get?_eq_getElem?] using hv
    simp [createElement, ETree.children, List.getElem?_map, hv2, createTextElement]
  · simp [createElement, ETree.children]

/-- Witness: `createElement "div" [] ["hi", <span/>]` coerces the string at
position 0 into a text element and passes the span through at position 1. -/
theorem createElement_coercion_witness :
    (createElement "div" [] [JSChild.textChild (Val.str "hi"),
        JSChild.elemChild (ETree.node "span" [] [])]).children.get? 0 =
      some (ETree.node "TEXT_ELEMENT" [("nodeValue", Val.str "hi")] [])
    ∧ (createElement "div" [] [JSChild.textChild (Val.str "hi"),
        JSChild.elemChild (ETree.node "span" [] [])]).children.get? 1 =
      some (ETree.node "span" [] []) := by
  constructor
  · exact (createElement_coercion "div" []
      [JSChild.textChild (Val.str "hi"), JSChild.elemChild (ETree.node "span" [] [])] 0).2.1
      (Val.str "hi") rfl
  · exact (createElement_coercion "div" []
      [JSChild.textChild (Val.str "hi"), JSChild.elemChild (ETree.node "span" [] [])] 1).1
      (ETree.node "span" [] []) rfl

/-- An entry of a JS `props.children` array before `.flat()`: either a single
element or a nested array of elements (e.g. produced by `list.map(...)`). -/
inductive ChildEntry where
  | single (e : ETree)
  | nested (es : List ETree)

/-- JS `Array.prototype.flat()` with its default depth of one. -/
def flatOnce (entries : List ChildEntry) : List ETree :=
  (entries.map (fun c =>
    match c with
    | .single e => [e]
    | .nested es => es)).flatten

/-- `updateHostComponent`: `const elements = fiber.props.children.flat()`. -/
def hostComponentElements (childEntries : List ChildEntry) : List ETree :=
  flatOnce childEntries

/-- `updateFunctionComponent`: `const children = [fiber.type(fiber.props)]`
(no flattening of the produced children). -/
def functionComponentElements (component : Props → ETree) (props : Props) : List ETree :=
  [component props]

/-- Host-component children are flattened one level before reconciliation:
a nested array entry contributes its elements as individual children at
consecutive positions, single entries stay in place, and function-component
children are reconciled without flattening. -/
theorem hostChildren_flattened :
    (∀ (pre : List ChildEntry) (arr : List ETree) (post : List ChildEntry),
      hostComponentElements (pre ++ ChildEntry.nested arr :: post) =
        hostComponentElements pre ++ arr ++ hostComponentElements post) ∧
    (∀ (pre : List ChildEntry) (e : ETree) (post : List ChildEntry),
      hostComponentElements (pre ++ ChildEntry.single e :: post) =
        hostComponentElements pre ++ e :: hostComponentElements post) ∧
    (∀ (component : Props → ETree) (props : Props),
      functionComponentElements component props = [component props]) := by
  refine ⟨?_, ?_, fun component props => rfl⟩
  · intro pre arr post
    simp [hostComponentElements, flatOnce, List.map_append, List.flatten_append, List.append_assoc]
  · intro pre e post
    simp [hostComponentElements, flatOnce, List.map_append, List.flatten_append, List.append_assoc]

/-- One `useState` hook cell: resolved `state` and the queue of pending
update actions pushed by its setter. -/
structure StateHook (σ : Type) where
  state : σ
  queue : List (σ → σ)

/-- `useState(initial)` for the hook at position `hookIndex` of the currently
processed function-component fiber, given the alternate fiber's hook list
(`wipFiber.alternate && wipFiber.alternate.hooks && wipFiber.alternate.hooks[hookIndex]`).
Builds the new hook: baseline from the old hook's state (or `initial`),
then replays the old hook's queued actions in order; fresh empty queue. -/
def useState {σ : Type} (altHooks : Option (List (StateHook σ))) (hookIndex : Nat)
    (initial : σ) : StateHook σ :=
  let oldHook : Option (StateHook σ) := altHooks.bind (fun hs => hs.get? hookIndex)
  let baseState : σ :=
    match oldHook with
    | some oh => oh.state
    | none => initial
  let actions : List (σ → σ) :=
    match oldHook with
    | some oh => oh.queue
    | none => []
  { state := actions.foldl (fun st a => a st) baseState, queue := [] }

/-- The first statement of `setState`: `hook.queue.push(action)`.  The rest of
`setState` (scheduling a fresh wip root and resetting the deletions list) is
modelled on the scheduler global state further below. -/
def pushAction {σ : Type} (hook : StateHook σ) (action : σ → σ) : StateHook σ :=
  { hook with queue := hook.queue ++ [action] }

/-- The counter scenario: a function component calling `useState 0` once at
hook position 0; `prev` is its hook from the previously committed render. -/
def counterRender (prev : Option (StateHook Nat)) : StateHook Nat :=
  useState (prev.map (fun h => [h])) 0 0

/-- One click: the setter is invoked with `(c) => c + 1`, pushing the action
onto the committed hook's queue and triggering a re-render. -/
def counterClick (h : StateHook Nat) : StateHook Nat :=
  pushAction h (fun c => c + 1)

def counterRender0 : StateHook Nat := counterRender none

def counterRender1 : StateHook Nat := counterRender (some (counterClick counterRender0))

def counterRender2 : StateHook Nat := counterRender (some (counterClick counterRender1))

def counterRender3 : StateHook Nat := counterRender (some (counterClick counterRender2))

/-- The resolved state of a render equals the replay, in queue order, of all
pending actions against the baseline (the hook at the same position of the
alternate fiber, or `initial` when absent); in the counter scenario, three
clicks of `(c) => c + 1` across three re-renders starting from 0 yield
states 1, 2, 3 in order. -/
theorem useState_replay :
    (∀ (σ : Type) (altHooks : Option (List (StateHook σ))) (n : Nat) (initial : σ),
      (useState altHooks n initial).state =
        (match altHooks.bind (fun hs => hs.get? n) with
         | some oh => oh.queue.foldl (fun st a => a st) oh.state
         | none => initial)) ∧
    counterRender0.state = 0 ∧ counterRender1.state = 1
    ∧ counterRender2.state = 2 ∧ counterRender3.state = 3 := by
  refine ⟨?_, rfl, rfl, rfl, rfl⟩
  intro σ altHooks n initial
  unfold useState
  cases h : altHooks.bind (fun hs => hs.get? n) with
  | none => simp
  | some oh => simp

/-- The scheduler's mutable globals touched by `workLoop`: the cursor
`nextUnitOfWork`, the wip root, and the current (committed) root.  The types
of units and roots are abstract here. -/
structure LoopState (α ρ : Type) where
  nextUnitOfWork : Option α
  wipRoot : Option ρ
  currentRoot : Option ρ

/-- The `while (nextUnitOfWork && !shouldYield)` loop.  `deadline` is the
sequence of `deadline.timeRemaining() < 1` test results, one per executed
unit of work, and the loop also stops when that sequence is exhausted (the
host grants no more time in this idle slice). -/
def workLoopGo {α : Type} (puow : α → Option α) : Option α → List Bool → Option α
  | none, _ => none
  | some c, [] => some c
  | some c, y :: ys => if y then puow c else workLoopGo puow (puow c) ys

/-- One invocation of `workLoop(deadline)`: run units of work while time
remains, then commit exactly when the cursor is exhausted and a wip root is
pending (`if (!nextUnitOfWork && wipRoot) commitRoot()`), promoting the wip
root to current and clearing the wip pointer.  The Bool records whether
`commitRoot` ran. -/
def workLoopModel {α ρ : Type} (puow : α → Option α) (deadline : List Bool)
    (s : LoopState α ρ) : LoopState α ρ × Bool :=
  let cur := workLoopGo puow s.nextUnitOfWork deadline
  match cur, s.wipRoot with
  | none, some w =>
    ({ nextUnitOfWork := none, wipRoot := none, currentRoot := some w }, true)
  | c, _ => ({ nextUnitOfWork := c, wipRoot := s.wipRoot, currentRoot := s.currentRoot }, false)

/-- `commitRoot` runs exactly when the cursor has reached `null` with a wip
root pending — i.e. after every fiber of the wip tree has been processed —
and then the wip root is promoted to current root and the wip pointer is
cleared; otherwise the roots are untouched and only the cursor advances. -/
theorem workLoop_commit_protocol :
    ∀ (α ρ : Type) (puow : α → Option α) (deadline : List Bool) (s : LoopState α ρ),
      ((workLoopModel puow deadline s).2 = true ↔
        workLoopGo puow s.nextUnitOfWork deadline = none ∧ s.wipRoot.isSome = true) ∧
      ((workLoopModel puow deadline s).2 = true →
        (workLoopModel puow deadline s).1.currentRoot = s.wipRoot ∧
        (workLoopModel puow deadline s).1.wipRoot = none ∧
        (workLoopModel puow deadline s).1.nextUnitOfWork = none) ∧
      ((workLoopModel puow deadline s).2 = false →
        (workLoopModel puow deadline s).1.currentRoot = s.currentRoot ∧
        (workLoopModel puow deadline s).1.wipRoot = s.wipRoot ∧
        (workLoopModel puow deadline s).1.nextUnitOfWork =
          workLoopGo puow s.nextUnitOfWork deadline) := by
  intro α ρ puow deadline s
  cases hgo : workLoopGo puow s.nextUnitOfWork deadline with
  | none =>
    cases hw : s.wipRoot with
    | none => simp [workLoopModel, hgo, hw]
    | some w => simp [workLoopModel, hgo, hw]
  | some c =>
    cases hw : s.wipRoot with
    | none => simp [workLoopModel, hgo, hw]
    | some w => simp [workLoopModel, hgo, hw]

/-- Witness: a one-step unit of work under a deadline that does not force a
yield reaches the commit point; the wip root is promoted. -/
theorem workLoop_commit_protocol_witness :
    (workLoopModel (fun _ : Nat => (none : Option Nat)) [false]
      (⟨some 0, some 1, none⟩ : LoopState Nat Nat)).2 = true
    ∧ (workLoopModel (fun _ : Nat => (none : Option Nat)) [false]
      (⟨some 0, some 1, none⟩ : LoopState Nat Nat)).1.currentRoot = some 1
    ∧ (workLoopModel (fun _ : Nat => (none : Option Nat)) [false]
      (⟨some 0, some 1, none⟩ : LoopState Nat Nat)).1.wipRoot = none := by
  have h := workLoop_commit_protocol Nat Nat (fun _ => none) [false] ⟨some 0, some 1, none⟩
  have hc := (h.1).mpr ⟨rfl, rfl⟩
  exact ⟨hc, (h.2.1 hc).1, (h.2.1 hc).2.1⟩

/-- The wip root object built by a render trigger:
`{ dom, props: { children }, alternate }` (the alternate contributes only its
committed child chain here). -/
structure WipRoot where
  dom : Nat
  childEls : List ETree
  altChildren : List Fiber

/-- The committed root: container dom, the elements it was rendered from, and
the committed child fibers. -/
structure CommittedRoot where
  dom : Nat
  childEls : List ETree
  children : List Fiber

/-- The module-level mutable variables of the source:
`nextUnitOfWork`, `currentRoot`, `wipRoot`, `deletions` (initially `null`). -/
structure GlobalState where
  nextUnitOfWork : Option WipRoot
  currentRoot : Option CommittedRoot
  wipRoot : Option WipRoot
  deletions : Option (List Fiber)

/-- `render(element, container)`: build a fresh wip root over the container
with `[element]` as children and the current root as alternate, reset the
deletions list to `[]`, point the cursor at the wip root. -/
def render (e : ETree) (container : Nat) (s : GlobalState) : GlobalState :=
  let wip : WipRoot :=
    { dom := container
      childEls := [e]
      altChildren :=
        match s.currentRoot with
        | some cr => cr.children
        | none => [] }
  { s with wipRoot := some wip, deletions := some [], nextUnitOfWork := some wip }

/-- The scheduling tail of `setState`: clone a wip root from `currentRoot`
(`{ dom: currentRoot.dom, props: currentRoot.props, alternate: currentRoot }`),
point the cursor at it, reset deletions to `[]`.  Reading `currentRoot.dom`
with no committed root throws in JS, modelled as `none`. -/
def setStateSchedule (s : GlobalState) : Option GlobalState :=
  match s.currentRoot with
  | none => none
  | some cr =>
    let wip : WipRoot := { dom := cr.dom, childEls := cr.childEls, altChildren := cr.children }
    some { s with wipRoot := some wip, nextUnitOfWork := some wip, deletions := some [] }

/-- Full `setState(action)`: push the action onto the hook's queue, then
schedule a whole-tree re-render from the current root. -/
def setState {σ : Type} (hook : StateHook σ) (action : σ → σ) (s : GlobalState) :
    StateHook σ × Option GlobalState :=
  (pushAction hook action, setStateSchedule s)

/-- Processing of a pending wip root by the work loop, run to completion:
reconcile the root's children, expand all fibers, collect this render's
deletion pushes in order. -/
def processWip (w : WipRoot) (cnt : Nat) : List Fiber × List Fiber × Nat :=
  let lvl := reconcileChildren w.altChildren w.childEls
  let r := performFibers w.childEls lvl.1 cnt
  (r.1, lvl.2 ++ r.2.1, r.2.2)

/-- A full work-loop pass over the pending wip root followed by `commitRoot`:
cursor ends at `null`, the wip root is promoted to current, the wip pointer
is cleared, and this render's deletion pushes land on the deletions list. -/
def renderCycle (s : GlobalState) (cnt : Nat) : GlobalState × Nat :=
  match s.wipRoot with
  | none => (s, cnt)
  | some w =>
    let r := processWip w cnt
    ({ nextUnitOfWork := none,
       currentRoot := some { dom := w.dom, childEls := w.childEls, children := r.1 },
       wipRoot := none,
       deletions := some ((match s.deletions with | some d => d | none => []) ++ r.2.1) },
     r.2.2)

/-- Both render triggers reset the pending-deletions list to `[]` before any
reconciliation of the new wip tree, and therefore a full render cycle ends
with exactly this render's deletions — no entries left over from a previous
render can be observed, whatever the deletions list held before. -/
theorem deletions_reset_per_render :
    (∀ (e : ETree) (container : Nat) (s : GlobalState),
      (render e container s).deletions = some []) ∧
    (∀ (s : GlobalState),
      (setStateSchedule s).map (fun s2 => s2.deletions) =
        (setStateSchedule s).map (fun _ => some ([] : List Fiber))) ∧
    (∀ (e : ETree) (container cnt : Nat) (s : GlobalState),
      ((renderCycle (render e container s) cnt).1).deletions =
        some (processWip
          { dom := container, childEls := [e],
            altChildren :=
              match s.currentRoot with
              | some cr => cr.children
              | none => [] } cnt).2.1) := by
  refine ⟨fun e container s => rfl, ?_, ?_⟩
  · intro s
    cases h : s.currentRoot with
    | none => simp [setStateSchedule, h]
    | some cr => simp [setStateSchedule, h]
  · intro e container cnt s
    simp [renderCycle, render]

mutual

/-- Every fiber of the tree carries the UPDATE effect tag. -/
def allUpdate : Fiber → Bool
  | .mk _ _ _ .update _ chs => allUpdates chs
  | _ => false

def allUpdates : List Fiber → Bool
  | [] => true
  | f :: fs => allUpdate f && allUpdates fs

end

mutual

/-- A committed fiber tree mirrors an element tree: same types, same props,
a DOM node present on every fiber, children aligned position by position. -/
def agrees : Fiber → ETree → Bool
  | .mk fty fprops fdom _ _ fchs, .node ety eprops echs =>
    (fty == ety) && (fprops == eprops) && fdom.isSome && agreesList fchs echs

def agreesList : List Fiber → List ETree → Bool
  | [], [] => true
  | f :: fs, e :: es => agrees f e && agreesList fs es
  | _, _ => false

end

mutual

/-- Every fiber has an alternate whose props equal its own props
(recursively): the shape of a re-render of an unchanged tree. -/
def altPropsEq : Fiber → Bool
  | .mk _ fprops _ _ alt chs =>
    (match alt with
     | some a => a.props == fprops
     | none => false) && altPropsEqList chs

def altPropsEqList : List Fiber → Bool
  | [] => true
  | f :: fs => altPropsEq f && altPropsEqList fs

end

/-- Positional type agreement between the protos produced by reconciliation
and the element list. -/
def tysAligned : List Proto → List ETree → Prop
  | [], [] => True
  | p :: ps, e :: es => p.ty = e.ty ∧ tysAligned ps es
  | _, _ => False

theorem recon_tysAligned : ∀ (elems : List ETree) (olds : List Fiber),
    tysAligned (reconcileChildren olds elems).1 elems := by
  intro elems
  induction elems with
  | nil => intro olds; simp [reconcileChildren, tysAligned]
  | cons e es ih =>
    intro olds
    cases olds with
    | nil => exact ⟨rfl, ih []⟩
    | cons o os =>
      by_cases hty : e.ty = o.ty
      · simpa [reconcileChildren, if_pos hty, tysAligned, hty] using ih os
      · simpa [reconcileChildren, if_neg hty, tysAligned] using ih os

mutual

theorem performFiber_agrees (e : ETree) (ty : String) (tag : EffectTag)
    (alt : Option Fiber) (dom0 : Option Nat) (cnt : Nat) (h : ty = e.ty) :
    agrees (performFiber e ty tag alt dom0 cnt).1 e = true := by
  cases e with
  | node ety eprops childEs =>
    have h2 : ty = ety := by simpa [ETree.ty] using h
    cases dom0 with
    | some d =>
      have hchild := performFibers_agrees childEs
        (reconcileChildren (match alt with | some a => a.children | none => []) childEs).1
        cnt (recon_tysAligned childEs _)
      simp only [performFiber, agrees]
      simp [h2, hchild]
    | none =>
      have hchild := performFibers_agrees childEs
        (reconcileChildren (match alt with | some a => a.children | none => []) childEs).1
        (cnt + 1) (recon_tysAligned childEs _)
      simp only [performFiber, agrees]
      simp [h2, hchild]

theorem performFibers_agrees (es : List ETree) (ps : List Proto) (cnt : Nat)
    (h : tysAligned ps es) :
    agreesList (performFibers es ps cnt).1 es = true := by
  cases es with
  | nil =>
    cases ps with
    | nil => simp [performFibers, agreesList]
    | cons p ps' => exact absurd h (by simp [tysAligned])
  | cons e es' =>
    cases ps with
    | nil => exact absurd h (by simp [tysAligned])
    | cons p ps' =>
      simp only [performFibers, agreesList, Bool.and_eq_true]
      exact ⟨performFiber_agrees e p.ty p.effectTag p.alternate p.dom cnt h.1,
        performFibers_agrees es' ps' _ h.2⟩

end

theorem agrees_ty {o : Fiber} {e : ETree} (h : agrees o e = true) : o.ty = e.ty := by
  cases o with
  | mk oty oprops odom otag oalt ochs =>
    cases e with
    | node ety eprops echs =>
      simp only [agrees, Bool.and_eq_true, beq_iff_eq] at h
      simpa [Fiber.ty, ETree.ty] using h.1.1.1

theorem agrees_props {o : Fiber} {e : ETree} (h : agrees o e = true) : o.props = e.props := by
  cases o with
  | mk oty oprops odom otag oalt ochs =>
    cases e with
    | node ety eprops echs =>
      simp only [agrees, Bool.and_eq_true, beq_iff_eq] at h
      simpa [Fiber.props, ETree.props] using h.1.1.2

theorem agrees_dom {o : Fiber} {e : ETree} (h : agrees o e = true) : o.dom.isSome = true := by
  cases o with
  | mk oty oprops odom otag oalt ochs =>
    cases e with
    | node ety eprops echs =>
      simp only [agrees, Bool.and_eq_true, beq_iff_eq] at h
      simpa [Fiber.dom] using h.1.2

theorem agrees_children {o : Fiber} {e : ETree} (h : agrees o e = true) :
    agreesList o.children e.children = true := by
  cases o with
  | mk oty oprops odom otag oalt ochs =>
    cases e with
    | node ety eprops echs =>
      simp only [agrees, Bool.and_eq_true, beq_iff_eq] at h
      simpa [Fiber.children, ETree.children] using h.2

mutual

theorem secondPassFiber (e : ETree) (o : Fiber) (cnt : Nat) (h : agrees o e = true) :
    allUpdate (performFiber e o.ty .update (some o) o.dom cnt).1 = true
    ∧ (performFiber e o.ty .update (some o) o.dom cnt).2.1 = []
    ∧ (performFiber e o.ty .update (some o) o.dom cnt).2.2 = cnt
    ∧ altPropsEq (performFiber e o.ty .update (some o) o.dom cnt).1 = true := by
  cases e with
  | node ety eprops echs =>
    cases o with
    | mk oty oprops odom otag oalt ochs =>
      simp only [agrees, Bool.and_eq_true, beq_iff_eq] at h
      obtain ⟨⟨⟨hty, hprops⟩, hdom⟩, hchs⟩ := h
      obtain ⟨d, hd⟩ := Option.isSome_iff_exists.mp hdom
      subst hd
      have hrec := secondPassList echs ochs cnt hchs
      simp only [performFiber, Fiber.ty, Fiber.dom, Fiber.children, allUpdate, allUpdates,
        altPropsEq, altPropsEqList, Fiber.props]
      refine ⟨?_, ?_, ?_, ?_⟩
      · simpa using hrec.2.1
      · simp [hrec.1, hrec.2.2.1]
      · simpa using hrec.2.2.2.1
      · simp only [Bool.and_eq_true, beq_iff_eq]
        exact ⟨by simp [Fiber.props, hprops], by simpa using hrec.2.2.2.2⟩

theorem secondPassList (es : List ETree) (os : List Fiber) (cnt : Nat)
    (h : agreesList os es = true) :
    (reconcileChildren os es).2 = []
    ∧ allUpdates (performFibers es (reconcileChildren os es).1 cnt).1 = true
    ∧ (performFibers es (reconcileChildren os es).1 cnt).2.1 = []
    ∧ (performFibers es (reconcileChildren os es).1 cnt).2.2 = cnt
    ∧ altPropsEqList (performFibers es (reconcileChildren os es).1 cnt).1 = true := by
  cases es with
  | nil =>
    cases os with
    | nil => simp [reconcileChildren, deleteRest, performFibers, allUpdates, altPropsEqList]
    | cons o os' => simp [agreesList] at h
  | cons e es' =>
    cases os with
    | nil => simp [agreesList] at h
    | cons o os' =>
      simp only [agreesList, Bool.and_eq_true] at h
      obtain ⟨h1, h2⟩ := h
      have hty : e.ty = o.ty := (agrees_ty h1).symm
      have hf := secondPassFiber e o cnt h1
      have hrest := secondPassList es' os' cnt h2
      simp only [reconcileChildren, if_pos hty]
      simp only [performFibers, allUpdates, altPropsEqList, Bool.and_eq_true]
      rw [hf.2.2.1]
      refine ⟨hrest.1, ⟨hf.1, hrest.2.1⟩, ?_, hrest.2.2.2.1, ⟨hf.2.2.2, hrest.2.2.2.2⟩⟩
      simp [hf.2.1, hrest.2.2.1]

end

/-- Every commit operation is an attribute patch with an empty diff: no node
is appended or removed and no attribute or listener is touched. -/
def onlyEmptyPatches (ops : List CommitOp) : Bool :=
  ops.all (fun op =>
    match op with
    | .patch _ [] => true
    | _ => false)

mutual

theorem commitWork_clean (dp : Nat) (f : Fiber) (hu : allUpdate f = true)
    (ha : altPropsEq f = true) : onlyEmptyPatches (commitWork dp f) = true := by
  cases f with
  | mk ty props dom tag alt chs =>
    cases tag with
    | placement => simp [allUpdate] at hu
    | deletion => simp [allUpdate] at hu
    | update =>
      simp only [allUpdate] at hu
      simp only [altPropsEq, Bool.and_eq_true] at ha
      obtain ⟨haid, hach⟩ := ha
      have hrec := commitWorks_clean (match dom with | some d => d | none => dp) chs hu hach
      cases halt : alt with
      | none => rw [halt] at haid; simp at haid
      | some a =>
        rw [halt] at haid
        have hap : a.props = props := by simpa using haid
        simp only [commitWork, onlyEmptyPatches, List.all_append]
        cases dom with
        | none =>
          simp only [Bool.and_eq_true]
          exact ⟨rfl, by simpa [onlyEmptyPatches] using hrec⟩
        | some d =>
          simp only [Bool.and_eq_true]
          constructor
          · simp [hap, updateDom_same]
          · simpa [onlyEmptyPatches] using hrec

theorem commitWorks_clean (dp : Nat) (fs : List Fiber) (hu : allUpdates fs = true)
    (ha : altPropsEqList fs = true) : onlyEmptyPatches (commitWorks dp fs) = true := by
  cases fs with
  | nil => simp [commitWorks, onlyEmptyPatches]
  | cons f fs' =>
    simp only [allUpdates, Bool.and_eq_true] at hu
    simp only [altPropsEqList, Bool.and_eq_true] at ha
    have h1 := commitWork_clean dp f hu.1 ha.1
    have h2 := commitWorks_clean dp fs' hu.2 ha.2
    simp only [commitWorks, onlyEmptyPatches, List.all_append, Bool.and_eq_true]
    exact ⟨by simpa [onlyEmptyPatches] using h1, by simpa [onlyEmptyPatches] using h2⟩

end

theorem allUpdate_children {f : Fiber} (h : allUpdate f = true) :
    allUpdates f.children = true := by
  cases f with
  | mk ty props dom tag alt chs =>
    cases tag with
    | placement => simp [allUpdate] at h
    | deletion => simp [allUpdate] at h
    | update => simpa [allUpdate, Fiber.children] using h

theorem altPropsEq_children {f : Fiber} (h : altPropsEq f = true) :
    altPropsEqList f.children = true := by
  cases f with
  | mk ty props dom tag alt chs =>
    simp only [altPropsEq, Bool.and_eq_true] at h
    simpa [Fiber.children] using h.2

theorem performFiber_ty (e : ETree) (ty : String) (tag : EffectTag)
    (alt : Option Fiber) (dom0 : Option Nat) (cnt : Nat) :
    (performFiber e ty tag alt dom0 cnt).1.ty = ty := by
  cases e with
  | node ety eprops echs => cases dom0 <;> simp [performFiber, Fiber.ty]

theorem performFiber_dom_some (e : ETree) (ty : String) (tag : EffectTag)
    (alt : Option Fiber) (d : Nat) (cnt : Nat) :
    (performFiber e ty tag alt (some d) cnt).1.dom = some d := by
  cases e with
  | node ety eprops echs => simp [performFiber, Fiber.dom]

/-- Rendering the same element tree twice in a row is idempotent at the DOM:
on the second render-to-commit pass every fiber resolves to UPDATE, the
allocator creates zero DOM nodes, reconciliation records zero deletions, and
the commit consists solely of attribute patches with empty diffs (zero
attribute assignments or clears, zero listener changes, zero appends or
removals). -/
theorem second_render_idempotent :
    ∀ (e : ETree) (containerDom cnt : Nat),
      allUpdate (renderRoot e (some (renderRoot e none containerDom cnt).1) containerDom
        (renderRoot e none containerDom cnt).2.2).1 = true
      ∧ (renderRoot e (some (renderRoot e none containerDom cnt).1) containerDom
        (renderRoot e none containerDom cnt).2.2).2.1 = []
      ∧ (renderRoot e (some (renderRoot e none containerDom cnt).1) containerDom
        (renderRoot e none containerDom cnt).2.2).2.2 =
          (renderRoot e none containerDom cnt).2.2
      ∧ onlyEmptyPatches (commitRoot containerDom
          (renderRoot e (some (renderRoot e none containerDom cnt).1) containerDom
            (renderRoot e none containerDom cnt).2.2).1) = true := by
  intro e containerDom cnt
  have hag : agrees (renderRoot e none containerDom cnt).1 (ETree.node "" [] [e]) = true := by
    unfold renderRoot
    exact performFiber_agrees (ETree.node "" [] [e]) "" .update none (some containerDom) cnt rfl
  have hty : (renderRoot e none containerDom cnt).1.ty = "" := by
    unfold renderRoot; exact performFiber_ty _ _ _ _ _ _
  have hdom : (renderRoot e none containerDom cnt).1.dom = some containerDom := by
    unfold renderRoot; exact performFiber_dom_some _ _ _ _ _ _
  have hs := secondPassFiber (ETree.node "" [] [e]) (renderRoot e none containerDom cnt).1
    (renderRoot e none containerDom cnt).2.2 hag
  rw [hty, hdom] at hs
  have heq : renderRoot e (some (renderRoot e none containerDom cnt).1) containerDom
      (renderRoot e none containerDom cnt).2.2 =
    performFiber (ETree.node "" [] [e]) "" .update
      (some (renderRoot e none containerDom cnt).1) (some containerDom)
      (renderRoot e none containerDom cnt).2.2 := rfl
  rw [heq]
  refine ⟨hs.1, hs.2.1, hs.2.2.1, ?_⟩
  unfold commitRoot
  exact commitWorks_clean containerDom _ (allUpdate_children hs.1) (altPropsEq_children hs.2.2.2)

/-- The shape of a fully built wip fiber tree.  A fiber is a position
(path of child indices): `fiber.child` is position `p ++ [0]`, the sibling of
the fiber at `p ++ [i]` is `p ++ [i + 1]`, the parent drops the last index. -/
inductive VTree where
  | node (children : List VTree)

/-- The subtree at a position, `none` when the position does not exist. -/
def subtreeAt : VTree → List Nat → Option VTree
  | t, [] => some t
  | .node cs, i :: p =>
    match cs.get? i with
    | some c => subtreeAt c p
    | none => none

/-- Whether a position exists in the tree. -/
def validPos (t : VTree) (p : List Nat) : Bool := (subtreeAt t p).isSome

/-- The `while (nextFiber)` climb at the end of `performUnitOfWork`, on
reversed positions: return the current fiber's sibling if it exists, else
climb to the parent; a climb that reaches past the root yields no fiber. -/
def climbSibling (t : VTree) : List Nat → Option (List Nat)
  | [] => none
  | i :: rp =>
    if validPos t (((i + 1) :: rp).reverse) then some ((i + 1) :: rp)
    else climbSibling t rp

/-- The next-unit-of-work computation of `performUnitOfWork`: the fiber's
child when it exists, otherwise the sibling of the nearest ancestor
(starting with the fiber itself) that has one, otherwise none. -/
def performUnitOfWorkNext (t : VTree) (p : List Nat) : Option (List Nat) :=
  if validPos t (p ++ [0]) then some (p ++ [0])
  else (climbSibling t p.reverse).map List.reverse

mutual

/-- Depth-first pre-order enumeration of the positions of the tree, each
child block fully before the next sibling. -/
def preorderT : VTree → List Nat → List (List Nat)
  | .node cs, base => base :: preorderL cs base 0

def preorderL : List VTree → List Nat → Nat → List (List Nat)
  | [], _, _ => []
  | c :: cs, base, i => preorderT c (base ++ [i]) ++ preorderL cs base (i + 1)

end

/-- Pre-order traversal of the whole tree. -/
def preorder (t : VTree) : List (List Nat) := preorderT t []

/-- The element following the first occurrence of `x` in `l`, if any. -/
def nextAfter (l : List (List Nat)) (x : List Nat) : Option (List Nat) :=
  match l.dropWhile (fun y => y != x) with
  | [] => none
  | _ :: rest => rest.head?

theorem VTree.inductionOn {motive : VTree → Prop}
    (h : ∀ cs, (∀ c, c ∈ cs → motive c) → motive (VTree.node cs)) : ∀ t, motive t
  | .node cs => h cs (fun c hc => VTree.inductionOn h c)
termination_by t => sizeOf t
decreasing_by
  have h1 : sizeOf c < sizeOf cs := List.sizeOf_lt_of_mem hc
  simp only [VTree.node.sizeOf_spec]
  omega

theorem preorderT_head : ∀ (t : VTree) (base : List Nat),
    ∃ l, preorderT t base = base :: l := by
  intro t base
  cases t with
  | node cs => exact ⟨preorderL cs base 0, rfl⟩

mutual

theorem preorderT_ext : ∀ (t : VTree) (base r : List Nat), r ∈ preorderT t base →
    ∃ s, r = base ++ s
  | .node cs, base, r, hr => by
    rcases List.mem_cons.mp hr with h | h
    · exact ⟨[], by simp [h]⟩
    · obtain ⟨j, s, hs⟩ := preorderL_ext cs base 0 r h
      exact ⟨j :: s, hs⟩

theorem preorderL_ext : ∀ (cs : List VTree) (base : List Nat) (k : Nat) (r : List Nat),
    r ∈ preorderL cs base k → ∃ j s, r = base ++ j :: s
  | [], _, _, r, hr => by simp [preorderL] at hr
  | c :: cs, base, k, r, hr => by
    rcases List.mem_append.mp hr with h | h
    · obtain ⟨s, hs⟩ := preorderT_ext c (base ++ [k]) r h
      exact ⟨k, s, by simpa [List.append_assoc] using hs⟩
    · exact preorderL_ext cs base (k + 1) r h

end

theorem validPos_cons_of_get (cs : List VTree) (i : Nat) (c : VTree)
    (hc : cs.get? i = some c) (r : List Nat) :
    validPos (VTree.node cs) (i :: r) = validPos c r := by
  have hc2 : cs[i]? = some c := by simpa [List.get?_eq_getElem?] using hc
  simp [validPos, subtreeAt, hc2]

mutual

theorem validPos_mem_preorderT : ∀ (t : VTree) (base p : List Nat),
    validPos t p = true → (base ++ p) ∈ preorderT t base
  | .node cs, base, [], _ => by simp [preorderT]
  | .node cs, base, i :: p', hv => by
    have hsub : (subtreeAt (VTree.node cs) (i :: p')).isSome = true := hv
    simp only [subtreeAt] at hsub
    cases hc : cs.get? i with
    | none => rw [hc] at hsub; simp at hsub
    | some c =>
      rw [hc] at hsub
      have hv' : validPos c p' = true := hsub
      have := validPos_mem_preorderL cs base 0 i c p' hc hv'
      simpa [preorderT] using this

theorem validPos_mem_preorderL : ∀ (cs : List VTree) (base : List Nat) (k i : Nat)
    (c : VTree) (p : List Nat), cs.get? i = some c → validPos c p = true →
    (base ++ (k + i) :: p) ∈ preorderL cs base k
  | [], _, _, i, _, _, hc, _ => by simp at hc
  | c0 :: cs', base, k, 0, c, p, hc, hv => by
    have hcc : c0 = c := by simpa using hc
    subst hcc
    apply List.mem_append_left
    have := validPos_mem_preorderT c0 (base ++ [k]) p hv
    simpa [List.append_assoc] using this
  | c0 :: cs', base, k, i + 1, c, p, hc, hv => by
    have hget : cs'.get? i = some c := by simpa using hc
    apply List.mem_append_right
    have := validPos_mem_preorderL cs' base (k + 1) i c p hget hv
    have harith : k + (i + 1) = k + 1 + i := by omega
    rw [harith]
    exact this

end

theorem validPos_singleton (cs : List VTree) (j : Nat) :
    validPos (VTree.node cs) [j] = true ↔ j < cs.length := by
  simp only [validPos, subtreeAt]
  cases hc : cs[j]? with
  | none =>
    have hlen : ¬ j < cs.length := by
      intro hlt
      rw [List.getElem?_eq_getElem hlt] at hc
      cases hc
    simp [hc, hlen]
  | some c =>
    have hlen : j < cs.length := (List.getElem?_eq_some_iff.mp hc).1
    simp [hlen, subtreeAt]

theorem climbSibling_append (cs : List VTree) (i : Nat) (c : VTree)
    (hc : cs.get? i = some c) :
    ∀ (rp : List Nat),
      climbSibling (VTree.node cs) (rp ++ [i]) =
        (match climbSibling c rp with
         | some rq => some (rq ++ [i])
         | none =>
           if validPos (VTree.node cs) [i + 1] = true then some [i + 1] else none) := by
  intro rp
  induction rp with
  | nil =>
    simp only [List.nil_append, climbSibling, List.reverse_cons, List.reverse_nil]
  | cons j rp' ih =>
    simp only [List.cons_append, climbSibling, List.append_eq, List.reverse_append,
      List.reverse_cons, List.reverse_nil, List.nil_append, List.singleton_append,
      List.append_assoc, validPos_cons_of_get cs i c hc]
    cases hv : validPos c (rp'.reverse ++ [j + 1]) with
    | true => simp [hv, List.cons_append]
    | false => simpa [hv] using ih

theorem performUnitOfWorkNext_cons (cs : List VTree) (i : Nat) (c : VTree)
    (hc : cs.get? i = some c) (p : List Nat) :
    performUnitOfWorkNext (VTree.node cs) (i :: p) =
      (match performUnitOfWorkNext c p with
       | some q => some (i :: q)
       | none => if i + 1 < cs.length then some [i + 1] else none) := by
  unfold performUnitOfWorkNext
  have h1 : validPos (VTree.node cs) ((i :: p) ++ [0]) = validPos c (p ++ [0]) := by
    simpa [List.cons_append] using validPos_cons_of_get cs i c hc (p ++ [0])
  rw [h1]
  cases hv : validPos c (p ++ [0]) with
  | true => simp [List.cons_append]
  | false =>
    simp only [Bool.false_eq_true, if_false]
    rw [show (i :: p).reverse = p.reverse ++ [i] from by simp,
      climbSibling_append cs i c hc]
    cases hcl : climbSibling c p.reverse with
    | some rq => simp
    | none =>
      by_cases hlen : i + 1 < cs.length
      · simp [(validPos_singleton cs (i + 1)).mpr hlen, hlen]
      · have hvf : validPos (VTree.node cs) [i + 1] = false := by
          cases hvv : validPos (VTree.node cs) [i + 1] with
          | false => rfl
          | true => exact absurd ((validPos_singleton cs (i + 1)).mp hvv) hlen
        simp [hvf, hlen]

theorem nextAfter_cons_self (x : List Nat) (l : List (List Nat)) :
    nextAfter (x :: l) x = l.head? := by
  simp [nextAfter, List.dropWhile_cons]

theorem nextAfter_cons_ne (a x : List Nat) (l : List (List Nat)) (h : a ≠ x) :
    nextAfter (a :: l) x = nextAfter l x := by
  simp [nextAfter, List.dropWhile_cons, h]

theorem nextAfter_append_left {A B : List (List Nat)} {x : List Nat} (hx : x ∈ A) :
    nextAfter (A ++ B) x =
      (match nextAfter A x with
       | some y => some y
       | none => B.head?) := by
  induction A with
  | nil => simp at hx
  | cons a A' ih =>
    by_cases hax : a = x
    · subst hax
      rw [List.cons_append, nextAfter_cons_self, nextAfter_cons_self]
      cases A' with
      | nil => simp
      | cons z zs => simp
    · have hx' : x ∈ A' := by
        rcases List.mem_cons.mp hx with h | h
        · exact absurd h.symm hax
        · exact h
      rw [List.cons_append, nextAfter_cons_ne _ _ _ hax, nextAfter_cons_ne _ _ _ hax]
      exact ih hx'

theorem nextAfter_append_right {A B : List (List Nat)} {x : List Nat} (hx : x ∉ A) :
    nextAfter (A ++ B) x = nextAfter B x := by
  induction A with
  | nil => simp
  | cons a A' ih =>
    have hax : a ≠ x := fun h => hx (by simp [h])
    have hx' : x ∉ A' := fun h => hx (List.mem_cons_of_mem _ h)
    rw [List.cons_append, nextAfter_cons_ne _ _ _ hax]
    exact ih hx'

theorem preorderL_head : ∀ (cs : List VTree) (base : List Nat) (k : Nat),
    (preorderL cs base k).head? =
      (match cs with
       | [] => none
       | _ :: _ => some (base ++ [k])) := by
  intro cs base k
  cases cs with
  | nil => rfl
  | cons c cs' =>
    obtain ⟨l, hl⟩ := preorderT_head c (base ++ [k])
    simp [preorderL, hl]

theorem nextAfter_preorderL : ∀ (cs : List VTree) (base : List Nat) (k i : Nat)
    (c : VTree) (x : List Nat), cs.get? i = some c →
    x ∈ preorderT c (base ++ [k + i]) →
    nextAfter (preorderL cs base k) x =
      (match nextAfter (preorderT c (base ++ [k + i])) x with
       | some y => some y
       | none => if i + 1 < cs.length then some (base ++ [k + i + 1]) else none) := by
  intro cs
  induction cs with
  | nil => intro base k i c x hc; simp at hc
  | cons c0 cs' ih =>
    intro base k i c x hc hx
    cases i with
    | zero =>
      have hcc : c0 = c := by simpa using hc
      subst hcc
      simp only [Nat.add_zero] at hx ⊢
      show nextAfter (preorderT c0 (base ++ [k]) ++ preorderL cs' base (k + 1)) x = _
      rw [nextAfter_append_left hx]
      cases hnext : nextAfter (preorderT c0 (base ++ [k])) x with
      | some y => simp
      | none =>
        rw [preorderL_head]
        cases cs' with
        | nil => simp
        | cons z zs => simp
    | succ i' =>
      have hget : cs'.get? i' = some c := by simpa using hc
      have hnotmem : x ∉ preorderT c0 (base ++ [k]) := by
        intro hmem
        obtain ⟨s, hs⟩ := preorderT_ext c0 (base ++ [k]) x hmem
        obtain ⟨s2, hs2⟩ := preorderT_ext c (base ++ [k + (i' + 1)]) x hx
        rw [hs] at hs2
        have hcancel : k :: s = (k + (i' + 1)) :: s2 := by
          have hs3 : base ++ k :: s = base ++ (k + (i' + 1)) :: s2 := by
            simpa [List.append_assoc] using hs2
          exact List.append_cancel_left hs3
        have : k = k + (i' + 1) := (List.cons.injEq _ _ _ _).mp hcancel |>.1
        omega
      show nextAfter (preorderT c0 (base ++ [k]) ++ preorderL cs' base (k + 1)) x = _
      rw [nextAfter_append_right hnotmem]
      have harith : k + (i' + 1) = k + 1 + i' := by omega
      rw [harith] at hx ⊢
      rw [ih base (k + 1) i' c x hget hx]
      cases hnext : nextAfter (preorderT c (base ++ [k + 1 + i'])) x with
      | some y => simp
      | none =>
        simp only [List.length_cons]
        by_cases hl : i' + 1 < cs'.length
        · rw [if_pos hl, if_pos (by omega)]
        · rw [if_neg hl, if_neg (by omega)]

theorem preorder_next_main (t : VTree) : ∀ (base p : List Nat), validPos t p = true →
    nextAfter (preorderT t base) (base ++ p) =
      (performUnitOfWorkNext t p).map (fun q => base ++ q) := by
  induction t using VTree.inductionOn with
  | _ cs IH =>
    intro base p hv
    cases p with
    | nil =>
      rw [List.append_nil]
      show nextAfter (base :: preorderL cs base 0) base = _
      rw [nextAfter_cons_self, preorderL_head]
      cases cs with
      | nil => simp [performUnitOfWorkNext, validPos, subtreeAt, climbSibling]
      | cons c cs' =>
        have hval : validPos (VTree.node (c :: cs')) [0] = true := by
          simp [validPos, subtreeAt]
        simp [performUnitOfWorkNext, hval]
    | cons i p' =>
      have hsub : (subtreeAt (VTree.node cs) (i :: p')).isSome = true := hv
      simp only [subtreeAt] at hsub
      cases hc : cs.get? i with
      | none => rw [hc] at hsub; simp at hsub
      | some c =>
        rw [hc] at hsub
        have hv' : validPos c p' = true := hsub
        have hmemc : c ∈ cs := List.get?_mem hc
        have hx : (base ++ [i]) ++ p' ∈ preorderT c (base ++ [i]) :=
          validPos_mem_preorderT c (base ++ [i]) p' hv'
        have hxx : base ++ i :: p' ∈ preorderT c (base ++ [0 + i]) := by
          simpa [List.append_assoc] using hx
        have hne : base ≠ base ++ i :: p' := by
          intro he
          have hlen := congrArg List.length he
          simp at hlen
        show nextAfter (base :: preorderL cs base 0) (base ++ i :: p') = _
        rw [nextAfter_cons_ne _ _ _ hne]
        rw [nextAfter_preorderL cs base 0 i c (base ++ i :: p') hc hxx]
        simp only [Nat.zero_add]
        have hIH := IH c hmemc (base ++ [i]) p' hv'
        have hxeq : base ++ i :: p' = (base ++ [i]) ++ p' := by simp
        rw [hxeq, hIH]
        rw [performUnitOfWorkNext_cons cs i c hc p']
        cases hn : performUnitOfWorkNext c p' with
        | some q => simp [List.append_assoc]
        | none =>
          by_cases hl : i + 1 < cs.length
          · simp [hl]
          · simp [hl]

theorem performFiber_dom_none (e : ETree) (ty : String) (tag : EffectTag)
    (alt : Option Fiber) (cnt : Nat) :
    (performFiber e ty tag alt none cnt).1.dom = some cnt := by
  cases e with
  | node ety eprops echs => simp [performFiber, Fiber.dom]

/-- `performUnitOfWork` returns the next fiber in depth-first pre-order —
the fiber's child when one exists, else the sibling of the nearest ancestor
(including the fiber itself) that has one, else none — and it creates the
fiber's `dom` only when absent: an existing `dom` is kept, an absent one is
filled with a freshly created node. -/
theorem performUnitOfWork_pre_order :
    (∀ (t : VTree) (p : List Nat), validPos t p = true →
      performUnitOfWorkNext t p = nextAfter (preorder t) p) ∧
    (∀ (e : ETree) (ty : String) (tag : EffectTag) (alt : Option Fiber) (d cnt : Nat),
      (performFiber e ty tag alt (some d) cnt).1.dom = some d) ∧
    (∀ (e : ETree) (ty : String) (tag : EffectTag) (alt : Option Fiber) (cnt : Nat),
      (performFiber e ty tag alt none cnt).1.dom = some cnt) := by
  refine ⟨?_, performFiber_dom_some, performFiber_dom_none⟩
  intro t p hv
  have h := preorder_next_main t [] p hv
  simp only [List.nil_append] at h
  unfold preorder
  rw [h]
  cases performUnitOfWorkNext t p with
  | none => rfl
  | some q => simp

/-- Witness: in the tree `node [leaf, leaf]`, the successor of the first
child is the second child, agreeing with the pre-order traversal. -/
theorem performUnitOfWork_pre_order_witness :
    validPos (VTree.node [VTree.node [], VTree.node []]) [0] = true
    ∧ performUnitOfWorkNext (VTree.node [VTree.node [], VTree.node []]) [0] =
        nextAfter (preorder (VTree.node [VTree.node [], VTree.node []])) [0] :=
  ⟨by decide, performUnitOfWork_pre_order.1
    (VTree.node [VTree.node [], VTree.node []]) [0] (by decide)⟩
